import Mathlib

/-!
Verification development for the `llmcheckpoint` versioning engine.

The development shallowly embeds the core of `src/extension.ts`:
the save-event handler with its change-significance filter, the commit
handler `handleGitCommit`, and the per-repository watcher installed by
`setupRepositoryWatcher`.  The Version Store (`FileVersionDB`, the `db`
module) is not among the provided sources, so its operations are modelled
from the specification (§4.1 of the spec); each such definition carries a
doc comment saying so.

JavaScript string primitives used by the source (`split`, `startsWith`,
`trim`) are embedded as executable functions on the character list of a
`String`, so that every definition evaluates by kernel reduction.
-/

namespace LLMCheckpoint

/-! ## JavaScript string primitives -/

/-- Models JavaScript `s.split(sep)` for a one-character separator:
auxiliary accumulating the current segment (in reverse). -/
def splitCharAux (sep : Char) : List Char → List Char → List String
  | [], acc => [⟨acc.reverse⟩]
  | x :: xs, acc =>
    if x == sep then ⟨acc.reverse⟩ :: splitCharAux sep xs []
    else splitCharAux sep xs (x :: acc)

/-- Models JavaScript `s.split(sep)` for a one-character separator
(`''.split(sep) = ['']`, separators at the ends yield empty segments). -/
def jsSplit (s : String) (sep : Char) : List String :=
  splitCharAux sep s.data []

/-- Models JavaScript `s.startsWith(p)`. -/
def jsStartsWith (s p : String) : Bool :=
  p.data.isPrefixOf s.data

/-- A JavaScript whitespace character (the ones relevant to git output). -/
def isWsChar (c : Char) : Bool :=
  c == ' ' || c == '\t' || c == '\n' || c == '\r'

/-- Models JavaScript `s.trim()`. -/
def jsTrim (s : String) : String :=
  ⟨((s.data.dropWhile isWsChar).reverse.dropWhile isWsChar).reverse⟩

/-! ## Data model (Version Store) -/

/-- A row of the `versions` table.  The `timestamp` and `label` columns are
not read by any of the embedded logic and are omitted. -/
structure VersionRecord where
  id : Nat
  file_id : Nat
  content : String
  version_number : Nat
deriving DecidableEq, Repr

/-- A row of the `files` table. -/
structure FileRecord where
  id : Nat
  file_path : String
  current_version_id : Option Nat
deriving DecidableEq, Repr

/-- Modelled from the spec: the Version Store state (§6 schema).  `files`
and `versions` hold the table rows; `nextFileId` and `nextVersionId` model
the AUTOINCREMENT counters, so the id of a freshly inserted row is fresh. -/
structure FileVersionDB where
  files : List FileRecord
  versions : List VersionRecord
  nextFileId : Nat
  nextVersionId : Nat
deriving DecidableEq, Repr

/-- The rows of `versions` owned by `fileId`, in table order. -/
def versOf (db : FileVersionDB) (fileId : Nat) : List VersionRecord :=
  db.versions.filter (fun v => v.file_id == fileId)

/-- Insert a Version into a list sorted by `version_number` descending. -/
def insertByNumDesc (v : VersionRecord) : List VersionRecord → List VersionRecord
  | [] => [v]
  | w :: ws =>
    if w.version_number ≤ v.version_number then v :: w :: ws
    else w :: insertByNumDesc v ws

/-- Sort a list of Versions by `version_number` descending (insertion sort). -/
def sortByNumDesc : List VersionRecord → List VersionRecord
  | [] => []
  | v :: vs => insertByNumDesc v (sortByNumDesc vs)

/-- The largest `version_number` among `l`, or `0` when `l` is empty. -/
def maxVersionNumber (l : List VersionRecord) : Nat :=
  l.foldl (fun a v => max a v.version_number) 0

/-- Modelled from the spec (§4.1 `getFile`): look a File up by path. -/
def getFile (db : FileVersionDB) (filePath : String) : Option FileRecord :=
  db.files.find? (fun f => f.file_path == filePath)

/-- Modelled from the spec (§4.1 `getAllFiles`): every File row. -/
def getAllFiles (db : FileVersionDB) : List FileRecord :=
  db.files

/-- Modelled from the spec (§4.1 `getFileVersions`): a File's Versions,
newest first by `version_number` descending; `limit` caps the length. -/
def getFileVersions (db : FileVersionDB) (fileId : Nat) (limit : Option Nat) :
    List VersionRecord :=
  match limit with
  | none => sortByNumDesc (versOf db fileId)
  | some n => (sortByNumDesc (versOf db fileId)).take n

/-- Modelled from the spec (§4.1 `createFile`): insert a File with null
current-version pointer.  The `ConflictError` branch is not modelled: per
the spec, callers check existence first, and every embedded caller does. -/
def createFile (db : FileVersionDB) (filePath : String) :
    FileRecord × FileVersionDB :=
  let f : FileRecord :=
    { id := db.nextFileId, file_path := filePath, current_version_id := none }
  (f, { db with files := db.files ++ [f], nextFileId := db.nextFileId + 1 })

/-- Modelled from the spec (§4.1 `createVersion`): assign
`version_number = max existing + 1` (or 1), point the owning File's
`current_version_id` at the new row, return the created row.  The
`NotFoundError` branch is not modelled: every embedded caller passes the id
of an existing File. -/
def createVersion (db : FileVersionDB) (fileId : Nat) (content : String) :
    VersionRecord × FileVersionDB :=
  let v : VersionRecord :=
    { id := db.nextVersionId, file_id := fileId, content := content,
      version_number := maxVersionNumber (versOf db fileId) + 1 }
  let files := db.files.map (fun f =>
    if f.id == fileId then { f with current_version_id := some v.id } else f)
  (v, { files := files, versions := v :: db.versions,
        nextFileId := db.nextFileId, nextVersionId := db.nextVersionId + 1 })

/-- Modelled from the spec (§4.1 `deleteVersion`, best-effort no-op
flavour): remove the row; when it was a File's `current_version_id`,
repoint at the next-latest remaining Version or null. -/
def deleteVersion (db : FileVersionDB) (versionId : Nat) : FileVersionDB :=
  let versions := db.versions.filter (fun v => v.id != versionId)
  let files := db.files.map (fun f =>
    if f.current_version_id == some versionId then
      { f with current_version_id :=
          match sortByNumDesc (versions.filter (fun w => w.file_id == f.id)) with
          | [] => none
          | w :: _ => some w.id }
    else f)
  { db with files := files, versions := versions }

/-! ## Unified line-diff (model of the external `diff` library) -/

/-- Number of changed (non-context) lines in an edit script. -/
def diffCost (l : List String) : Nat :=
  (l.filter (fun s => !(jsStartsWith s " "))).length

/-- Minimal line edit script between two line lists: context lines carry a
leading space, removed lines a leading `-`, added lines a leading `+`.
Fuel-indexed so that it is structurally recursive; `editScript` supplies
enough fuel for the fallback branch never to be reached. -/
def editScriptFuel : Nat → List String → List String → List String
  | 0, as, bs => as.map (fun a => "-" ++ a) ++ bs.map (fun b => "+" ++ b)
  | _ + 1, [], bs => bs.map (fun b => "+" ++ b)
  | _ + 1, a :: as, [] => ("-" ++ a) :: as.map (fun x => "-" ++ x)
  | fuel + 1, a :: as, b :: bs =>
    if a == b then (" " ++ a) :: editScriptFuel fuel as bs
    else
      let delFirst := ("-" ++ a) :: editScriptFuel fuel as (b :: bs)
      let addFirst := ("+" ++ b) :: editScriptFuel fuel (a :: as) bs
      if diffCost delFirst ≤ diffCost addFirst then delFirst else addFirst

/-- Minimal line edit script between two line lists. -/
def editScript (as bs : List String) : List String :=
  editScriptFuel (as.length + bs.length) as bs

/-- Modelled from the spec: the unified line-diff produced by the external
`diff` library's `createPatch` (out of scope per §1, interface per §4.2):
header lines naming the file, then hunk body lines, one `+`/`-` marked line
per added/removed line. -/
def createPatch (fileName oldStr newStr : String) : String :=
  String.intercalate "\n"
    ((("Index: " ++ fileName) ::
      String.mk (List.replicate 67 '=') ::
      ("--- " ++ fileName) :: ("+++ " ++ fileName) :: "@@ @@" :: []) ++
      editScript (jsSplit oldStr '\n') (jsSplit newStr '\n'))

/-- The changed-line count of the save handler (`extension.ts` 237-239):
split the patch text on newlines, keep lines starting with `+` or `-`,
drop the `+++`/`---` diff-header lines. -/
def countChanges (patch : String) : Nat :=
  (((jsSplit patch '\n').filter
      (fun line => jsStartsWith line "+" || jsStartsWith line "-")).filter
    (fun line => !jsStartsWith line "+++" && !jsStartsWith line "---")).length

/-! ## Save handler (`onWillSaveTextDocument`, `extension.ts` 210-254) -/

/-- The duplicate-content check (`extension.ts` 223):
`versions.length > 0 && versions[0].content === content`. -/
def isDuplicate (versions : List VersionRecord) (content : String) : Bool :=
  match versions with
  | v :: _ => v.content == content
  | [] => false

/-- The change-significance filter of the save handler
(`extension.ts` 227-245): with `saveAllChanges` unset, skip a first save of
at most one line, and skip an edit whose diff has at most two changed
lines. -/
def shouldSkipSave (saveAllChanges : Bool) (db : FileVersionDB) (fileId : Nat)
    (content : String) : Bool :=
  if !saveAllChanges then
    match getFileVersions db fileId (some 1) with
    | [] => decide ((jsSplit content '\n').length ≤ 1)
    | prev :: _ =>
      decide (countChanges (createPatch "file" prev.content content) ≤ 2)
  else false

/-- The save-event handler (`extension.ts` 210-254): look the File up
(creating it on first sight), drop duplicate content, apply the
change-significance filter, and persist a new Version when it approves.
UI refresh and error reporting are external and omitted. -/
def onWillSave (saveAllChanges : Bool) (relativePath content : String)
    (db : FileVersionDB) : FileVersionDB :=
  let fdb :=
    match getFile db relativePath with
    | some f => (f, db)
    | none => createFile db relativePath
  let file := fdb.1
  let db1 := fdb.2
  if isDuplicate (getFileVersions db1 file.id (some 1)) content then db1
  else if shouldSkipSave saveAllChanges db1 file.id content then db1
  else (createVersion db1 file.id content).2

/-! ## Commit handler (`handleGitCommit`, `extension.ts` 32-93) -/

/-- The annotated content written after a commit (`extension.ts` 68). -/
def gitCommitMarker (commitMessage content : String) : String :=
  "/* Git commit: " ++ commitMessage ++ " */\n" ++ content

/-- One iteration of the `handleGitCommit` loop (`extension.ts` 51-78) for
one File: skip it unless its normalized path is among the committed files
and it has at least one Version; otherwise create the annotated Version
and, under auto-cleanup, delete the Versions that preceded it.  `norm`
stands for the external `path.normalize`. -/
def processFile (norm : String → String) (autoCleanup : Bool)
    (changedFiles : List String) (commitMessage : String)
    (db : FileVersionDB) (file : FileRecord) : FileVersionDB :=
  if !(changedFiles.contains (norm file.file_path)) then db
  else
    let versions := getFileVersions db file.id none
    match versions with
    | [] => db
    | latestVersion :: _ =>
      let db1 :=
        (createVersion db file.id
          (gitCommitMarker commitMessage latestVersion.content)).2
      if autoCleanup then
        versions.foldl (fun d v => deleteVersion d v.id) db1
      else db1

/-- The commit handler `handleGitCommit` (`extension.ts` 32-93): given the committed file set
and the commit message, annotate the latest Version of every committed
File that has one; `autoCleanup` is the value of the
auto-cleanup-after-commit setting.  The message-query fallback for an
absent message argument, UI refresh and logging are external and omitted;
the internal try/catch only affects external failures. -/
def handleGitCommit (norm : String → String) (autoCleanup : Bool)
    (db : FileVersionDB) (changedFiles : List String)
    (commitMessage : String) : FileVersionDB :=
  if commitMessage == "" || jsTrim commitMessage == "" then db
  else
    (getAllFiles db).foldl
      (processFile norm autoCleanup changedFiles commitMessage) db

/-! ## Per-repository watcher (`setupRepositoryWatcher`, `extension.ts` 419-480) -/

/-- The per-repository mutable state of the Commit-Correlation Engine:
this repository's entry in `lastCommitByRepo`, its entry in
`stagedChangesMap` (`none` models an absent entry; the stored `message`
field is the constant `''` and is never read, so only the file list is
kept), and the closure-local guard `isProcessingCommit`. -/
structure RepoState where
  lastCommit : Option String
  stagedFiles : Option (List String)
  isProcessingCommit : Bool
deriving DecidableEq, Repr

/-- What one repository-state-change notification delivers, together with
the values the external queries made during its handling return: the HEAD
commit hash (`repository.state.HEAD?.commit`), the staged paths
(`repository.state.indexChanges`, as filesystem paths), the result of
`getLatestCommitMessage` (which returns `''` on a git failure), and the
auto-cleanup setting. -/
structure RepoNotification where
  headCommit : Option String
  indexChanges : List String
  commitMessage : String
  autoCleanup : Bool
deriving Repr

/-- A point of `setupRepositoryWatcher`'s handler at which an unexpected
error may be thrown (everything after that point is skipped; the
`try`/`finally`/`catch` structure of the source decides what still runs). -/
inductive ThrowPoint where
  | beforeSnapshot
  | afterSnapshot
  | inTryBeforeMessage
  | inTryAfterMessage
  | inTryAfterProcess
deriving DecidableEq, Repr

/-- The watcher's state plus the Version Store it drives. -/
structure World where
  repo : RepoState
  db : FileVersionDB
deriving DecidableEq, Repr

/-- The `repository.state.onDidChange` handler (`extension.ts` 422-479).
`norm` and `rel` stand for the external `path.normalize` and
`vscode.workspace.asRelativePath`; `err` is `some p` when an unexpected
error is thrown at point `p` (the inner `finally` and the outer `catch`
then clear the guard, exactly as in the source), `none` for a normal run.
`handleGitCommit` catches its own errors, so it never throws here. -/
def onDidChange (norm rel : String → String) (err : Option ThrowPoint)
    (n : RepoNotification) (w : World) : World :=
  if w.repo.isProcessingCommit then w
  else if err = some ThrowPoint.beforeSnapshot then
    { w with repo := { w.repo with isProcessingCommit := false } }
  else
    match n.headCommit with
    | none => w
    | some commit =>
      let stagedSnapshot := (n.indexChanges.map (fun p => norm (rel p))).eraseDups
      let st1 : RepoState := { w.repo with stagedFiles := some stagedSnapshot }
      if err = some ThrowPoint.afterSnapshot then
        { w with repo := { st1 with isProcessingCommit := false } }
      else if st1.lastCommit = some commit then { w with repo := st1 }
      else
        let st2 : RepoState :=
          { st1 with isProcessingCommit := true, lastCommit := some commit }
        if err = some ThrowPoint.inTryBeforeMessage then
          { w with repo := { st2 with isProcessingCommit := false } }
        else if n.commitMessage == "" then
          { w with repo := { st2 with isProcessingCommit := false } }
        else if err = some ThrowPoint.inTryAfterMessage then
          { w with repo := { st2 with isProcessingCommit := false } }
        else
          match st2.stagedFiles with
          | some files =>
            if files.length > 0 then
              let db2 := handleGitCommit norm n.autoCleanup w.db files n.commitMessage
              if err = some ThrowPoint.inTryAfterProcess then
                { repo := { st2 with isProcessingCommit := false }, db := db2 }
              else
                { repo := { st2 with stagedFiles := none, isProcessingCommit := false },
                  db := db2 }
            else { w with repo := { st2 with isProcessingCommit := false } }
          | none => { w with repo := { st2 with isProcessingCommit := false } }

/-! ## Store invariants and concrete stores -/

/-- The part of store well-formedness the commit pass relies on:
Version ids are pairwise distinct and below the AUTOINCREMENT counter. -/
structure StoreInv (db : FileVersionDB) : Prop where
  nodupIds : (db.versions.map (fun v => v.id)).Nodup
  idsLt : ∀ v ∈ db.versions, v.id < db.nextVersionId

/-- Well-formedness of a store state, as established by the schema's
AUTOINCREMENT keys: distinct File ids, distinct Version ids, and both id
kinds below their counters (so fresh ids are really fresh). -/
structure DBWF (db : FileVersionDB) : Prop where
  filesNodup : (db.files.map (fun f => f.id)).Nodup
  versNodup : (db.versions.map (fun v => v.id)).Nodup
  versIdLt : ∀ v ∈ db.versions, v.id < db.nextVersionId
  versFileLt : ∀ v ∈ db.versions, v.file_id < db.nextFileId

/-- A `DBWF` store satisfies the commit-pass invariant. -/
def DBWF.toStoreInv {db : FileVersionDB} (h : DBWF db) : StoreInv db :=
  ⟨h.versNodup, h.versIdLt⟩

/-- The empty store. -/
def dbEmpty : FileVersionDB :=
  { files := [], versions := [], nextFileId := 0, nextVersionId := 0 }

/-- A tiny well-formed store used by concrete witnesses: one File `a.txt`
with a single Version of content `h`. -/
def dbOne : FileVersionDB :=
  { files := [⟨0, "a.txt", some 0⟩], versions := [⟨0, 0, "h", 1⟩],
    nextFileId := 1, nextVersionId := 1 }

/-- A store whose File `f.txt` has one Version of content `a\nb\nc`,
used by the change-significance-filter witnesses. -/
def dbABC : FileVersionDB :=
  { files := [⟨0, "f.txt", some 0⟩], versions := [⟨0, 0, "a\nb\nc", 1⟩],
    nextFileId := 1, nextVersionId := 1 }

/-- A watcher state over `dbOne` whose last observed commit is `h1`. -/
def worldOne : World :=
  { repo := { lastCommit := some "h1", stagedFiles := none, isProcessingCommit := false },
    db := dbOne }

/-- The state `worldOne` with the processing guard set, as while a round
is in flight. -/
def worldBusy : World :=
  { repo := { lastCommit := some "h1", stagedFiles := none, isProcessingCommit := true },
    db := dbOne }

/-- A notification for a fresh commit `h2` of `a.txt` with message `m`. -/
def notifCommit : RepoNotification :=
  { headCommit := some "h2", indexChanges := ["a.txt"], commitMessage := "m",
    autoCleanup := false }

/-- A notification for a fresh commit `h2` whose message query failed. -/
def notifEmptyMsg : RepoNotification :=
  { headCommit := some "h2", indexChanges := ["a.txt"], commitMessage := "",
    autoCleanup := false }

/-- A notification whose HEAD hash `h1` equals the last observed one. -/
def notifSameHead : RepoNotification :=
  { headCommit := some "h1", indexChanges := ["b.txt"], commitMessage := "m",
    autoCleanup := false }

/-- A later notification still at HEAD `h2`, now with a good message. -/
def notifRetry : RepoNotification :=
  { headCommit := some "h2", indexChanges := [], commitMessage := "m",
    autoCleanup := true }

/-! ## Lemmas about the sort and the store operations -/

theorem mem_insertByNumDesc {v w : VersionRecord} {l : List VersionRecord} :
    w ∈ insertByNumDesc v l ↔ w = v ∨ w ∈ l := by
  induction l with
  | nil => simp [insertByNumDesc]
  | cons x xs ih =>
    simp only [insertByNumDesc]
    split
    · simp [List.mem_cons]
    · simp only [List.mem_cons, ih]
      tauto

theorem mem_sortByNumDesc {w : VersionRecord} {l : List VersionRecord} :
    w ∈ sortByNumDesc l ↔ w ∈ l := by
  induction l with
  | nil => simp [sortByNumDesc]
  | cons x xs ih => simp [sortByNumDesc, mem_insertByNumDesc, ih]

theorem insertByNumDesc_ne_nil (v : VersionRecord) (l : List VersionRecord) :
    insertByNumDesc v l ≠ [] := by
  cases l with
  | nil => simp [insertByNumDesc]
  | cons x xs =>
    simp only [insertByNumDesc]
    split <;> simp

theorem sortByNumDesc_eq_nil_iff {l : List VersionRecord} :
    sortByNumDesc l = [] ↔ l = [] := by
  cases l with
  | nil => simp [sortByNumDesc]
  | cons x xs => simp [sortByNumDesc, insertByNumDesc_ne_nil]

theorem insertByNumDesc_eq_cons {v : VersionRecord} {l : List VersionRecord}
    (h : ∀ w ∈ l, w.version_number ≤ v.version_number) :
    insertByNumDesc v l = v :: l := by
  cases l with
  | nil => rfl
  | cons x xs =>
    simp only [insertByNumDesc]
    rw [if_pos (h x (by simp))]

theorem sortByNumDesc_cons_of_max {v : VersionRecord} {l : List VersionRecord}
    (h : ∀ w ∈ l, w.version_number ≤ v.version_number) :
    sortByNumDesc (v :: l) = v :: sortByNumDesc l := by
  simp only [sortByNumDesc]
  exact insertByNumDesc_eq_cons (fun w hw => h w (mem_sortByNumDesc.mp hw))

theorem init_le_foldlMax (l : List VersionRecord) (a : Nat) :
    a ≤ l.foldl (fun b v => max b v.version_number) a := by
  induction l generalizing a with
  | nil => simp
  | cons v vs ih => exact le_trans (le_max_left _ _) (ih _)

theorem foldlMax_le_mem :
    ∀ (l : List VersionRecord) (v : VersionRecord), v ∈ l → ∀ (a : Nat),
      v.version_number ≤ l.foldl (fun b w => max b w.version_number) a := by
  intro l
  induction l with
  | nil => intro v h; cases h
  | cons x xs ih =>
    intro v h a
    rcases List.mem_cons.mp h with rfl | hx
    · exact le_trans (le_max_right a _) (init_le_foldlMax xs _)
    · exact ih v hx _

theorem le_maxVersionNumber {l : List VersionRecord} {v : VersionRecord}
    (h : v ∈ l) : v.version_number ≤ maxVersionNumber l :=
  foldlMax_le_mem l v h 0

theorem mem_versOf_mem {db : FileVersionDB} {fid : Nat} {v : VersionRecord}
    (h : v ∈ versOf db fid) : v ∈ db.versions :=
  List.mem_of_mem_filter h

theorem mem_versOf_file_id {db : FileVersionDB} {fid : Nat} {v : VersionRecord}
    (h : v ∈ versOf db fid) : v.file_id = fid := by
  have := List.of_mem_filter h
  simpa using this

theorem versOf_createVersion_self (db : FileVersionDB) (fid : Nat) (c : String) :
    versOf (createVersion db fid c).2 fid
      = (createVersion db fid c).1 :: versOf db fid := by
  simp [versOf, createVersion, List.filter_cons]

theorem versOf_createVersion_other (db : FileVersionDB) (fid fid' : Nat) (c : String)
    (h : fid' ≠ fid) :
    versOf (createVersion db fid c).2 fid' = versOf db fid' := by
  simp only [versOf, createVersion, List.filter_cons]
  rw [if_neg]
  simp [Ne.symm h]

theorem versOf_deleteVersion (db : FileVersionDB) (vid fid : Nat) :
    versOf (deleteVersion db vid) fid
      = (versOf db fid).filter (fun v => v.id != vid) := by
  simp only [versOf, deleteVersion, List.filter_filter]
  congr 1
  funext v
  exact Bool.and_comm _ _

theorem storeInv_createVersion (db : FileVersionDB) (fid : Nat) (c : String)
    (h : StoreInv db) : StoreInv (createVersion db fid c).2 := by
  constructor
  · simp only [createVersion, List.map_cons]
    refine List.nodup_cons.mpr ⟨?_, h.nodupIds⟩
    intro hmem
    obtain ⟨v, hv, hid⟩ := List.mem_map.mp hmem
    exact absurd (hid ▸ h.idsLt v hv) (lt_irrefl _)
  · intro v hv
    simp only [createVersion, List.mem_cons] at hv
    rcases hv with rfl | hv
    · simp [createVersion]
    · exact lt_trans (h.idsLt v hv) (Nat.lt_succ_self _)

theorem storeInv_deleteVersion (db : FileVersionDB) (vid : Nat)
    (h : StoreInv db) : StoreInv (deleteVersion db vid) := by
  constructor
  · exact h.nodupIds.sublist ((List.filter_sublist _).map _)
  · intro v hv
    exact h.idsLt v (List.mem_of_mem_filter hv)

theorem storeInv_foldl_deleteVersion (ws : List VersionRecord) :
    ∀ (db : FileVersionDB), StoreInv db →
      StoreInv (ws.foldl (fun d v => deleteVersion d v.id) db) := by
  induction ws with
  | nil => intro db h; exact h
  | cons w ws ih =>
    intro db h
    exact ih _ (storeInv_deleteVersion _ _ h)

theorem versOf_foldl_deleteVersion (ws : List VersionRecord) :
    ∀ (db : FileVersionDB) (fid : Nat),
      versOf (ws.foldl (fun d v => deleteVersion d v.id) db) fid
        = (versOf db fid).filter (fun v => ws.all (fun w => v.id != w.id)) := by
  induction ws with
  | nil => intro db fid; simp
  | cons w ws ih =>
    intro db fid
    simp only [List.foldl_cons]
    rw [ih, versOf_deleteVersion, List.filter_filter]
    congr 1
    funext v
    simp only [List.all_cons]
    exact Bool.and_comm _ _

theorem version_id_inj {db : FileVersionDB}
    (h : (db.versions.map (fun v => v.id)).Nodup)
    {v w : VersionRecord} (hv : v ∈ db.versions) (hw : w ∈ db.versions)
    (hid : v.id = w.id) : v = w :=
  List.inj_on_of_nodup_map h hv hw hid

/-! ## The commit pass, one File at a time -/

theorem versOf_processFile_other (norm : String → String) (ac : Bool)
    (staged : List String) (msg : String) (db : FileVersionDB) (g : FileRecord)
    (fid : Nat) (hInv : StoreInv db) (h : fid ≠ g.id) :
    versOf (processFile norm ac staged msg db g) fid = versOf db fid := by
  unfold processFile
  cases hcont : staged.contains (norm g.file_path) with
  | false => simp
  | true =>
    simp only [Bool.not_true, Bool.false_eq_true, if_false]
    cases hv : getFileVersions db g.id none with
    | nil => rfl
    | cons latest rest =>
      cases ac with
      | false =>
        simpa using versOf_createVersion_other db g.id fid _ h
      | true =>
        simp only [if_true]
        rw [versOf_foldl_deleteVersion, versOf_createVersion_other db g.id fid _ h]
        apply List.filter_eq_self.mpr
        intro v hvmem
        apply List.all_eq_true.mpr
        intro w hw
        have hw' : w ∈ versOf db g.id := by
          apply mem_sortByNumDesc.mp
          show w ∈ getFileVersions db g.id none
          rw [hv]
          exact hw
        have hvdb : v ∈ db.versions := mem_versOf_mem hvmem
        have hwdb : w ∈ db.versions := mem_versOf_mem hw'
        have hne : v.id ≠ w.id := by
          intro heq
          have hvw : v = w := version_id_inj hInv.nodupIds hvdb hwdb heq
          apply h
          rw [← mem_versOf_file_id hvmem, hvw]
          exact mem_versOf_file_id hw'
        simpa using hne

theorem versOf_processFile_self (norm : String → String) (ac : Bool)
    (staged : List String) (msg : String) (db : FileVersionDB) (f : FileRecord)
    (hInv : StoreInv db)
    (hc : staged.contains (norm f.file_path) = true)
    (latest : VersionRecord) (rest : List VersionRecord)
    (hv : getFileVersions db f.id none = latest :: rest) :
    versOf (processFile norm ac staged msg db f) f.id
      = (if ac then
          [⟨db.nextVersionId, f.id, gitCommitMarker msg latest.content,
            maxVersionNumber (versOf db f.id) + 1⟩]
        else
          ⟨db.nextVersionId, f.id, gitCommitMarker msg latest.content,
            maxVersionNumber (versOf db f.id) + 1⟩ :: versOf db f.id) := by
  have hnew :
      versOf (createVersion db f.id (gitCommitMarker msg latest.content)).2 f.id
        = ⟨db.nextVersionId, f.id, gitCommitMarker msg latest.content,
            maxVersionNumber (versOf db f.id) + 1⟩ :: versOf db f.id :=
    versOf_createVersion_self db f.id _
  unfold processFile
  rw [hc]
  simp only [Bool.not_true, Bool.false_eq_true, if_false, hv]
  cases ac with
  | false => exact hnew
  | true =>
    simp only [if_true]
    rw [versOf_foldl_deleteVersion, hnew]
    rw [List.filter_cons]
    have hnewkeep :
        ((latest :: rest).all (fun w =>
          (db.nextVersionId : Nat) != w.id)) = true := by
      apply List.all_eq_true.mpr
      intro w hw
      have hw' : w ∈ versOf db f.id := by
        apply mem_sortByNumDesc.mp
        show w ∈ getFileVersions db f.id none
        rw [hv]
        exact hw
      have : w.id < db.nextVersionId := hInv.idsLt w (mem_versOf_mem hw')
      simpa using Nat.ne_of_gt this
    rw [if_pos hnewkeep]
    congr 1
    apply List.filter_eq_nil_iff.mpr
    intro v hvmem
    have hvin : v ∈ latest :: rest := by
      rw [← hv]
      apply mem_sortByNumDesc.mpr
      exact hvmem
    simp only [Bool.not_eq_true]
    apply List.all_eq_false.mpr
    exact ⟨v, hvin, by simp⟩

theorem storeInv_processFile (norm : String → String) (ac : Bool)
    (staged : List String) (msg : String) (db : FileVersionDB) (g : FileRecord)
    (h : StoreInv db) : StoreInv (processFile norm ac staged msg db g) := by
  unfold processFile
  cases staged.contains (norm g.file_path) with
  | false => simpa using h
  | true =>
    simp only [Bool.not_true, Bool.false_eq_true, if_false]
    cases getFileVersions db g.id none with
    | nil => exact h
    | cons latest rest =>
      cases ac with
      | false => exact storeInv_createVersion db g.id _ h
      | true =>
        exact storeInv_foldl_deleteVersion _ _ (storeInv_createVersion db g.id _ h)

theorem storeInv_foldl_processFile (norm : String → String) (ac : Bool)
    (staged : List String) (msg : String) :
    ∀ (fs : List FileRecord) (db : FileVersionDB), StoreInv db →
      StoreInv (fs.foldl (processFile norm ac staged msg) db) := by
  intro fs
  induction fs with
  | nil => intro db h; exact h
  | cons g gs ih =>
    intro db h
    exact ih _ (storeInv_processFile norm ac staged msg db g h)

theorem versOf_foldl_processFile_other (norm : String → String) (ac : Bool)
    (staged : List String) (msg : String) :
    ∀ (fs : List FileRecord) (db : FileVersionDB) (fid : Nat), StoreInv db →
      (∀ g ∈ fs, fid ≠ g.id) →
      versOf (fs.foldl (processFile norm ac staged msg) db) fid = versOf db fid := by
  intro fs
  induction fs with
  | nil => intro db fid _ _; rfl
  | cons g gs ih =>
    intro db fid hInv hall
    simp only [List.foldl_cons]
    rw [ih _ _ (storeInv_processFile norm ac staged msg db g hInv)
        (fun g' hg' => hall g' (List.mem_cons_of_mem g hg'))]
    exact versOf_processFile_other norm ac staged msg db g fid hInv
      (hall g (List.mem_cons_self g gs))

/-- Effect of the whole `handleGitCommit` loop on the Versions of one File
`f` occurring in the iterated File list: untouched when its normalized
path is not among the committed files or it has no Version; otherwise its
raw Version rows become the annotated row (consing under no cleanup,
replacing everything under auto-cleanup). -/
theorem versOf_foldl_processFile_self (norm : String → String) (ac : Bool)
    (staged : List String) (msg : String) :
    ∀ (fs : List FileRecord) (db : FileVersionDB) (f : FileRecord), StoreInv db →
      (fs.map (fun g => g.id)).Nodup → f ∈ fs →
      (staged.contains (norm f.file_path) = false →
        versOf (fs.foldl (processFile norm ac staged msg) db) f.id = versOf db f.id) ∧
      (versOf db f.id = [] →
        versOf (fs.foldl (processFile norm ac staged msg) db) f.id = versOf db f.id) ∧
      (∀ latest rest, staged.contains (norm f.file_path) = true →
        getFileVersions db f.id none = latest :: rest →
        ∃ i, versOf (fs.foldl (processFile norm ac staged msg) db) f.id
          = (if ac then
              [⟨i, f.id, gitCommitMarker msg latest.content,
                maxVersionNumber (versOf db f.id) + 1⟩]
            else
              ⟨i, f.id, gitCommitMarker msg latest.content,
                maxVersionNumber (versOf db f.id) + 1⟩ :: versOf db f.id)) := by
  intro fs
  induction fs with
  | nil => intro db f _ _ hf; cases hf
  | cons g gs ih =>
    intro db f hInv hnodup hf
    have hInv' : StoreInv (processFile norm ac staged msg db g) :=
      storeInv_processFile norm ac staged msg db g hInv
    rcases List.mem_cons.mp hf with rfl | hfgs
    · -- f is the head; it does not recur in the tail (distinct ids)
      have hnotin : ∀ g' ∈ gs, f.id ≠ g'.id := by
        intro g' hg' heq
        have : f.id ∈ gs.map (fun g => g.id) := List.mem_map.mpr ⟨g', hg', heq.symm⟩
        exact (List.nodup_cons.mp hnodup).1 this
      have hframe :
          versOf (gs.foldl (processFile norm ac staged msg)
              (processFile norm ac staged msg db f)) f.id
            = versOf (processFile norm ac staged msg db f) f.id :=
        versOf_foldl_processFile_other norm ac staged msg gs _ f.id hInv' hnotin
      refine ⟨?_, ?_, ?_⟩
      · intro hc
        simp only [List.foldl_cons]
        rw [hframe]
        unfold processFile
        rw [hc]
        simp
      · intro hnil
        simp only [List.foldl_cons]
        rw [hframe]
        unfold processFile
        have hgv : getFileVersions db f.id none = [] := by
          show sortByNumDesc (versOf db f.id) = []
          rw [hnil]
          rfl
        cases staged.contains (norm f.file_path) with
        | false => simp
        | true =>
          simp only [Bool.not_true, Bool.false_eq_true, if_false, hgv]
      · intro latest rest hc hv
        simp only [List.foldl_cons]
        rw [hframe]
        exact ⟨db.nextVersionId,
          versOf_processFile_self norm ac staged msg db f hInv hc latest rest hv⟩
    · -- f occurs in the tail; the head has a different id
      have hne : f.id ≠ g.id := by
        intro heq
        have : f.id ∈ gs.map (fun g => g.id) := List.mem_map.mpr ⟨f, hfgs, rfl⟩
        rw [heq] at this
        exact (List.nodup_cons.mp hnodup).1 this
      have hstep :
          versOf (processFile norm ac staged msg db g) f.id = versOf db f.id :=
        versOf_processFile_other norm ac staged msg db g f.id hInv hne
      have ihres := ih (processFile norm ac staged msg db g) f hInv'
        (List.nodup_cons.mp hnodup).2 hfgs
      have hget :
          getFileVersions (processFile norm ac staged msg db g) f.id none
            = getFileVersions db f.id none := by
        show sortByNumDesc (versOf (processFile norm ac staged msg db g) f.id)
          = sortByNumDesc (versOf db f.id)
        rw [hstep]
      refine ⟨?_, ?_, ?_⟩
      · intro hc
        simp only [List.foldl_cons]
        rw [ihres.1 hc, hstep]
      · intro hnil
        simp only [List.foldl_cons]
        rw [ihres.2.1 (by rw [hstep]; exact hnil), hstep]
      · intro latest rest hc hv
        simp only [List.foldl_cons]
        obtain ⟨i, hi⟩ := ihres.2.2 latest rest hc (by rw [hget]; exact hv)
        rw [hstep] at hi
        exact ⟨i, hi⟩

theorem handleGitCommit_guard_false {msg : String} (hmsg : jsTrim msg ≠ "") :
    (msg == "" || jsTrim msg == "") = false := by
  apply Bool.or_eq_false_iff.mpr
  constructor
  · apply beq_eq_false_iff_ne.mpr
    intro h0
    apply hmsg
    rw [h0]
    rfl
  · exact beq_eq_false_iff_ne.mpr hmsg

/-- C1: with a non-empty commit message, `handleGitCommit` creates, for
every File whose normalized path is among the committed files and which
has at least one Version, exactly one new Version whose content is the
commit marker line followed by the prior latest Version's content (the
sole new entry of its Version list; under auto-cleanup the sole entry);
a File whose path was not committed, or which has no Version, gets no new
Version. -/
theorem handleGitCommit_annotates_staged (norm : String → String) (ac : Bool)
    (db : FileVersionDB) (staged : List String) (msg : String)
    (hWF : DBWF db) (hmsg : jsTrim msg ≠ "")
    (f : FileRecord) (hf : f ∈ db.files) :
    (∀ latest rest, staged.contains (norm f.file_path) = true →
      getFileVersions db f.id none = latest :: rest →
      ∃ v, v.content = gitCommitMarker msg latest.content ∧
        v ∉ getFileVersions db f.id none ∧
        getFileVersions (handleGitCommit norm ac db staged msg) f.id none
          = (if ac then [v] else v :: getFileVersions db f.id none)) ∧
    (staged.contains (norm f.file_path) = false ∨
        getFileVersions db f.id none = [] →
      getFileVersions (handleGitCommit norm ac db staged msg) f.id none
        = getFileVersions db f.id none) := by
  have hfold := versOf_foldl_processFile_self norm ac staged msg db.files db f
    hWF.toStoreInv hWF.filesNodup hf
  have hunfold : handleGitCommit norm ac db staged msg
      = db.files.foldl (processFile norm ac staged msg) db := by
    unfold handleGitCommit
    rw [handleGitCommit_guard_false hmsg]
    rfl
  constructor
  · intro latest rest hc hv
    obtain ⟨i, hi⟩ := hfold.2.2 latest rest hc hv
    refine ⟨⟨i, f.id, gitCommitMarker msg latest.content,
      maxVersionNumber (versOf db f.id) + 1⟩, rfl, ?_, ?_⟩
    · intro hmem
      have : maxVersionNumber (versOf db f.id) + 1 ≤ maxVersionNumber (versOf db f.id) :=
        le_maxVersionNumber (mem_sortByNumDesc.mp hmem)
      omega
    · rw [hunfold]
      show sortByNumDesc (versOf (db.files.foldl (processFile norm ac staged msg) db) f.id) = _
      rw [hi]
      cases ac with
      | true => rfl
      | false =>
        simp only [Bool.false_eq_true, if_false]
        apply sortByNumDesc_cons_of_max
        intro w hw
        exact le_trans (le_maxVersionNumber hw) (Nat.le_succ _)
  · intro hcase
    rw [hunfold]
    show sortByNumDesc (versOf (db.files.foldl (processFile norm ac staged msg) db) f.id)
      = sortByNumDesc (versOf db f.id)
    rcases hcase with hc | hnil
    · rw [hfold.1 hc]
    · rw [hfold.2.1 (sortByNumDesc_eq_nil_iff.mp hnil)]

/-- Witness for `handleGitCommit_annotates_staged` at a concrete store:
one File `a.txt` at content `h`, committed files `[a.txt]`, message `m`,
auto-cleanup off. -/
theorem handleGitCommit_annotates_staged_witness :
    ∃ v, v.content = gitCommitMarker "m" "h" ∧
      v ∉ getFileVersions dbOne 0 none ∧
      getFileVersions (handleGitCommit (fun s => s) false dbOne ["a.txt"] "m") 0 none
        = (if false then [v] else v :: getFileVersions dbOne 0 none) :=
  (handleGitCommit_annotates_staged (fun s => s) false dbOne ["a.txt"] "m"
      ⟨by decide, by decide, by decide, by decide⟩ (by decide)
      ⟨0, "a.txt", some 0⟩ (by decide)).1 ⟨0, 0, "h", 1⟩ [] (by decide) (by decide)

/-- C2: with auto-cleanup enabled, after `handleGitCommit` every processed
File (committed path, at least one prior Version) holds exactly one
Version: the freshly created annotated one; every previously existing
Version of that File is gone. -/
theorem handleGitCommit_autoCleanup_collapses (norm : String → String)
    (db : FileVersionDB) (staged : List String) (msg : String)
    (hWF : DBWF db) (hmsg : jsTrim msg ≠ "")
    (f : FileRecord) (hf : f ∈ db.files)
    (latest : VersionRecord) (rest : List VersionRecord)
    (hc : staged.contains (norm f.file_path) = true)
    (hv : getFileVersions db f.id none = latest :: rest) :
    ∃ v, getFileVersions (handleGitCommit norm true db staged msg) f.id none = [v] ∧
      v.content = gitCommitMarker msg latest.content ∧
      ∀ w ∈ getFileVersions db f.id none,
        w ∉ getFileVersions (handleGitCommit norm true db staged msg) f.id none := by
  have hfold := versOf_foldl_processFile_self norm true staged msg db.files db f
    hWF.toStoreInv hWF.filesNodup hf
  have hunfold : handleGitCommit norm true db staged msg
      = db.files.foldl (processFile norm true staged msg) db := by
    unfold handleGitCommit
    rw [handleGitCommit_guard_false hmsg]
    rfl
  obtain ⟨i, hi⟩ := hfold.2.2 latest rest hc hv
  simp only [if_true] at hi
  have hfinal : getFileVersions (handleGitCommit norm true db staged msg) f.id none
      = [⟨i, f.id, gitCommitMarker msg latest.content,
          maxVersionNumber (versOf db f.id) + 1⟩] := by
    rw [hunfold]
    show sortByNumDesc (versOf (db.files.foldl (processFile norm true staged msg) db) f.id) = _
    rw [hi]
    rfl
  refine ⟨_, hfinal, rfl, ?_⟩
  intro w hw hwmem
  rw [hfinal] at hwmem
  have hwv : w = ⟨i, f.id, gitCommitMarker msg latest.content,
      maxVersionNumber (versOf db f.id) + 1⟩ := by
    simpa using hwmem
  have : maxVersionNumber (versOf db f.id) + 1 ≤ maxVersionNumber (versOf db f.id) := by
    have hle := le_maxVersionNumber (mem_sortByNumDesc.mp hw)
    rw [hwv] at hle
    exact hle
  omega

/-- Witness for `handleGitCommit_autoCleanup_collapses` at the same
concrete store with auto-cleanup on. -/
theorem handleGitCommit_autoCleanup_collapses_witness :
    ∃ v, getFileVersions (handleGitCommit (fun s => s) true dbOne ["a.txt"] "m") 0 none = [v] ∧
      v.content = gitCommitMarker "m" "h" ∧
      ∀ w ∈ getFileVersions dbOne 0 none,
        w ∉ getFileVersions (handleGitCommit (fun s => s) true dbOne ["a.txt"] "m") 0 none :=
  handleGitCommit_autoCleanup_collapses (fun s => s) dbOne ["a.txt"] "m"
    ⟨by decide, by decide, by decide, by decide⟩ (by decide)
    ⟨0, "a.txt", some 0⟩ (by decide) ⟨0, 0, "h", 1⟩ [] (by decide) (by decide)

/-! ## Watcher lemmas -/

theorem same_head_step (norm rel : String → String)
    (m : RepoNotification) (w : World) (c : String)
    (hguard : w.repo.isProcessingCommit = false)
    (hhead : m.headCommit = some c)
    (hlast : w.repo.lastCommit = some c) :
    onDidChange norm rel none m w
      = { w with repo := { w.repo with
            stagedFiles := some ((m.indexChanges.map (fun p => norm (rel p))).eraseDups) } } := by
  unfold onDidChange
  rw [hhead]
  simp [hguard, hlast]

theorem abort_step (norm rel : String → String)
    (n : RepoNotification) (w : World) (c : String)
    (hguard : w.repo.isProcessingCommit = false)
    (hhead : n.headCommit = some c)
    (hlast : w.repo.lastCommit ≠ some c)
    (hmsg : n.commitMessage = "") :
    onDidChange norm rel none n w
      = { w with repo :=
            { lastCommit := some c,
              stagedFiles := some ((n.indexChanges.map (fun p => norm (rel p))).eraseDups),
              isProcessingCommit := false } } := by
  unfold onDidChange
  rw [hhead]
  simp [hguard, hlast, hmsg]

theorem foldl_same_head_db (norm rel : String → String) (c : String) :
    ∀ (ms : List RepoNotification) (w : World),
      (∀ m ∈ ms, m.headCommit = some c) →
      w.repo.isProcessingCommit = false → w.repo.lastCommit = some c →
      (ms.foldl (fun w' m => onDidChange norm rel none m w') w).db = w.db := by
  intro ms
  induction ms with
  | nil => intro w _ _ _; rfl
  | cons m ms ih =>
    intro w hall hg hl
    simp only [List.foldl_cons]
    rw [same_head_step norm rel m w c hg (hall m (List.mem_cons_self m ms)) hl]
    exact ih _ (fun m' hm' => hall m' (List.mem_cons_of_mem m hm')) hg hl

/-! ## Claims about the watcher -/

/-- C3: a notification arriving while `isProcessingCommit` is set is a
complete no-op: the handler leaves the watcher state and the store exactly
as they were (no Version created, no engine state mutated, hence no
duplicate annotated Version), whatever the notification carries and even
when an error is thrown. -/
theorem onDidChange_guarded_noop (norm rel : String → String)
    (err : Option ThrowPoint) (n : RepoNotification) (w : World)
    (h : w.repo.isProcessingCommit = true) :
    onDidChange norm rel err n w = w := by
  unfold onDidChange
  simp [h]

/-- Witness for `onDidChange_guarded_noop`: a busy watcher ignores a fresh
commit notification. -/
theorem onDidChange_guarded_noop_witness :
    onDidChange (fun s => s) (fun s => s) none notifCommit worldBusy = worldBusy :=
  onDidChange_guarded_noop (fun s => s) (fun s => s) none notifCommit worldBusy rfl

/-- C4: every completed handler invocation that began outside a processing
round leaves `isProcessingCommit` clear — whether it ran through, aborted
early, or threw at any modelled point; hence across any sequence of
notifications (with any error behaviour) the guard never remains stuck. -/
theorem onDidChange_clears_guard (norm rel : String → String)
    (steps : List (Option ThrowPoint × RepoNotification)) (w : World)
    (h : w.repo.isProcessingCommit = false) :
    (steps.foldl (fun w' p => onDidChange norm rel p.1 p.2 w') w).repo.isProcessingCommit
      = false := by
  induction steps generalizing w with
  | nil => exact h
  | cons p ps ih =>
    simp only [List.foldl_cons]
    apply ih
    unfold onDidChange
    simp only [h, Bool.false_eq_true, if_false]
    repeat' split
    all_goals first | rfl | exact h

/-- Witness for `onDidChange_clears_guard`: a run that throws right after
the message query still ends with a clear guard. -/
theorem onDidChange_clears_guard_witness :
    (([(some ThrowPoint.inTryAfterMessage, notifCommit)]).foldl
        (fun w' p => onDidChange (fun s => s) (fun s => s) p.1 p.2 w')
        worldOne).repo.isProcessingCommit = false :=
  onDidChange_clears_guard (fun s => s) (fun s => s)
    [(some ThrowPoint.inTryAfterMessage, notifCommit)] worldOne rfl

/-- C5: when the HEAD hash is unchanged from the last observed one, the
handler only overwrites the staged snapshot: the store, the last observed
hash and the guard are untouched — the snapshot (normalized workspace
relative paths of the index) is still updated. -/
theorem onDidChange_unchanged_head (norm rel : String → String)
    (n : RepoNotification) (w : World) (c : String)
    (hguard : w.repo.isProcessingCommit = false)
    (hhead : n.headCommit = some c)
    (hlast : w.repo.lastCommit = some c) :
    onDidChange norm rel none n w
      = { w with repo := { w.repo with
            stagedFiles := some ((n.indexChanges.map (fun p => norm (rel p))).eraseDups) } } :=
  same_head_step norm rel n w c hguard hhead hlast

/-- Witness for `onDidChange_unchanged_head`: a second notification at the
already observed hash `h1`. -/
theorem onDidChange_unchanged_head_witness :
    onDidChange (fun s => s) (fun s => s) none notifSameHead worldOne
      = { repo := { lastCommit := some "h1", stagedFiles := some ["b.txt"],
                    isProcessingCommit := false },
          db := dbOne } := by
  have h := onDidChange_unchanged_head (fun s => s) (fun s => s) notifSameHead
    worldOne "h1" rfl rfl rfl
  rw [h]
  decide

/-- C6: on a new HEAD hash with an empty (failed) commit-message query the
round aborts: the store is untouched, the guard ends clear, and the staged
snapshot taken this round is retained (not cleared). -/
theorem onDidChange_empty_message_aborts (norm rel : String → String)
    (n : RepoNotification) (w : World) (c : String)
    (hguard : w.repo.isProcessingCommit = false)
    (hhead : n.headCommit = some c)
    (hlast : w.repo.lastCommit ≠ some c)
    (hmsg : n.commitMessage = "") :
    onDidChange norm rel none n w
      = { w with repo :=
            { lastCommit := some c,
              stagedFiles := some ((n.indexChanges.map (fun p => norm (rel p))).eraseDups),
              isProcessingCommit := false } } :=
  abort_step norm rel n w c hguard hhead hlast hmsg

/-- Witness for `onDidChange_empty_message_aborts`: fresh hash `h2`,
failed message query. -/
theorem onDidChange_empty_message_aborts_witness :
    onDidChange (fun s => s) (fun s => s) none notifEmptyMsg worldOne
      = { repo := { lastCommit := some "h2", stagedFiles := some ["a.txt"],
                    isProcessingCommit := false },
          db := dbOne } := by
  have h := onDidChange_empty_message_aborts (fun s => s) (fun s => s) notifEmptyMsg
    worldOne "h2" rfl rfl (by decide) rfl
  rw [h]
  decide

/-- C9: an aborted round (new hash, empty message) has already recorded
the new hash, so no later notification still at that HEAD — whatever its
message or staged set — ever touches the store: the retained staged set is
never actually retried for that commit. -/
theorem empty_message_round_never_retried (norm rel : String → String)
    (n : RepoNotification) (w : World) (c : String)
    (hguard : w.repo.isProcessingCommit = false)
    (hhead : n.headCommit = some c)
    (hlast : w.repo.lastCommit ≠ some c)
    (hmsg : n.commitMessage = "") :
    (onDidChange norm rel none n w).repo.lastCommit = some c ∧
    (onDidChange norm rel none n w).db = w.db ∧
    ∀ ms : List RepoNotification, (∀ m ∈ ms, m.headCommit = some c) →
      (ms.foldl (fun w' m => onDidChange norm rel none m w')
          (onDidChange norm rel none n w)).db = w.db := by
  have habort := abort_step norm rel n w c hguard hhead hlast hmsg
  rw [habort]
  refine ⟨rfl, rfl, ?_⟩
  intro ms hall
  exact foldl_same_head_db norm rel c ms _ hall rfl rfl

/-- Witness for `empty_message_round_never_retried`: after the aborted
`h2` round, a later `h2` notification with a good message and auto-cleanup
on still leaves the store untouched. -/
theorem empty_message_round_never_retried_witness :
    (onDidChange (fun s => s) (fun s => s) none notifEmptyMsg worldOne).repo.lastCommit
        = some "h2" ∧
    (onDidChange (fun s => s) (fun s => s) none notifEmptyMsg worldOne).db = dbOne ∧
    ([notifRetry].foldl (fun w' m => onDidChange (fun s => s) (fun s => s) none m w')
        (onDidChange (fun s => s) (fun s => s) none notifEmptyMsg worldOne)).db = dbOne := by
  have h := empty_message_round_never_retried (fun s => s) (fun s => s) notifEmptyMsg
    worldOne "h2" rfl rfl (by decide) rfl
  exact ⟨h.1, h.2.1, h.2.2 [notifRetry] (by decide)⟩

/-! ## Claims about the save handler -/

/-- C7: on a save of changed content for a File with a prior Version, the
handler counts the added/removed lines of the unified diff (headers
excluded); with `saveAllChanges` off and at most two such lines the save
is skipped (store untouched), otherwise exactly one new Version with the
candidate content is persisted. -/
theorem save_diff_filter (saveAll : Bool) (db : FileVersionDB)
    (path content : String) (file : FileRecord) (prev : VersionRecord)
    (hfile : getFile db path = some file)
    (hvers : getFileVersions db file.id (some 1) = [prev])
    (hneq : prev.content ≠ content) :
    (saveAll = false → countChanges (createPatch "file" prev.content content) ≤ 2 →
      onWillSave saveAll path content db = db) ∧
    ((saveAll = true ∨ 2 < countChanges (createPatch "file" prev.content content)) →
      ∃ v, v.content = content ∧
        getFileVersions (onWillSave saveAll path content db) file.id none
          = v :: getFileVersions db file.id none) := by
  have hstep : onWillSave saveAll path content db
      = if isDuplicate (getFileVersions db file.id (some 1)) content then db
        else if shouldSkipSave saveAll db file.id content then db
        else (createVersion db file.id content).2 := by
    unfold onWillSave
    rw [hfile]
  have hdup : isDuplicate (getFileVersions db file.id (some 1)) content = false := by
    rw [hvers]
    simpa [isDuplicate] using hneq
  rw [hdup] at hstep
  simp only [Bool.false_eq_true, if_false] at hstep
  constructor
  · intro hsa hcount
    rw [hstep, hsa]
    have hskip : shouldSkipSave false db file.id content = true := by
      unfold shouldSkipSave
      rw [hvers]
      simpa using hcount
    rw [hskip]
    simp
  · intro hor
    have hskip : shouldSkipSave saveAll db file.id content = false := by
      rcases hor with hsa | hcount
      · rw [hsa]
        rfl
      · cases saveAll with
        | true => rfl
        | false =>
          unfold shouldSkipSave
          rw [hvers]
          simpa using Nat.not_le.mpr hcount
    rw [hstep, hskip]
    simp only [Bool.false_eq_true, if_false]
    refine ⟨(createVersion db file.id content).1, rfl, ?_⟩
    show sortByNumDesc (versOf (createVersion db file.id content).2 file.id) = _
    rw [versOf_createVersion_self]
    apply sortByNumDesc_cons_of_max
    intro w hw
    exact le_trans (le_maxVersionNumber hw) (Nat.le_succ _)

/-- Witness for `save_diff_filter` on the spec's example pair: previous
content `a\nb\nc`, candidate `a\nx\nc` (one changed line, diff count 2):
skipped with `saveAllChanges` off, persisted with it on. -/
theorem save_diff_filter_witness :
    onWillSave false "f.txt" "a\nx\nc" dbABC = dbABC ∧
    ∃ v, v.content = "a\nx\nc" ∧
      getFileVersions (onWillSave true "f.txt" "a\nx\nc" dbABC) 0 none
        = v :: getFileVersions dbABC 0 none := by
  have h1 := save_diff_filter false dbABC "f.txt" "a\nx\nc"
    ⟨0, "f.txt", some 0⟩ ⟨0, 0, "a\nb\nc", 1⟩ (by decide) (by decide) (by decide)
  have h2 := save_diff_filter true dbABC "f.txt" "a\nx\nc"
    ⟨0, "f.txt", some 0⟩ ⟨0, 0, "a\nb\nc", 1⟩ (by decide) (by decide) (by decide)
  exact ⟨h1.1 rfl (by decide), h2.2 (Or.inl rfl)⟩

/-- Counterexample to C8 as stated: saving the single-line content `x`
to the unseen path `a.txt` with `saveAllChanges` off is rejected by the
significance filter, yet afterwards a File row for `a.txt` exists (with
no Versions) — the row is inserted before the filter runs
(`extension.ts` 215-218). -/
theorem file_row_exists_after_rejected_first_save :
    getFile (onWillSave false "a.txt" "x" dbEmpty) "a.txt"
        = some ⟨0, "a.txt", none⟩ ∧
    (onWillSave false "a.txt" "x" dbEmpty).versions = [] := by
  decide

/-- C8 amended: a File row is created on the first observed save of a
path, before the significance filter runs; when the filter rejects that
first save, the File row exists afterwards but carries zero Versions, and
no Version row is added. -/
theorem first_save_rejected_creates_file_row (db : FileVersionDB)
    (path content : String) (hWF : DBWF db)
    (hfile : getFile db path = none)
    (hlines : (jsSplit content '\n').length ≤ 1) :
    getFile (onWillSave false path content db) path
        = some ((createFile db path).1) ∧
    (onWillSave false path content db).versions = db.versions ∧
    getFileVersions (onWillSave false path content db)
        (createFile db path).1.id none = [] := by
  have hversnil : versOf (createFile db path).2 db.nextFileId = [] := by
    apply List.filter_eq_nil_iff.mpr
    intro v hv
    have : v.file_id < db.nextFileId := hWF.versFileLt v hv
    simpa using Nat.ne_of_lt this
  have hget1 : getFileVersions (createFile db path).2 db.nextFileId (some 1) = [] := by
    show (sortByNumDesc (versOf (createFile db path).2 db.nextFileId)).take 1 = []
    rw [hversnil]
    rfl
  have hstep : onWillSave false path content db = (createFile db path).2 := by
    unfold onWillSave
    rw [hfile]
    show (if isDuplicate (getFileVersions (createFile db path).2 db.nextFileId (some 1))
            content then _
          else if shouldSkipSave false (createFile db path).2 db.nextFileId content then _
          else _) = _
    rw [hget1]
    have hskip : shouldSkipSave false (createFile db path).2 db.nextFileId content
        = true := by
      unfold shouldSkipSave
      rw [hget1]
      simpa using hlines
    rw [hskip]
    rfl
  refine ⟨?_, ?_, ?_⟩
  · rw [hstep]
    unfold getFile createFile
    rw [List.find?_append]
    have hnone : db.files.find? (fun f => f.file_path == path) = none := hfile
    rw [hnone]
    simp
  · rw [hstep]
    rfl
  · rw [hstep]
    show sortByNumDesc (versOf (createFile db path).2 db.nextFileId) = []
    rw [hversnil]
    rfl

/-- Witness for `first_save_rejected_creates_file_row`: first save of the
one-line content `x` under path `b.txt` over `dbOne`. -/
theorem first_save_rejected_creates_file_row_witness :
    getFile (onWillSave false "b.txt" "x" dbOne) "b.txt"
        = some ((createFile dbOne "b.txt").1) ∧
    (onWillSave false "b.txt" "x" dbOne).versions = dbOne.versions ∧
    getFileVersions (onWillSave false "b.txt" "x" dbOne)
        (createFile dbOne "b.txt").1.id none = [] :=
  first_save_rejected_creates_file_row dbOne "b.txt" "x"
    ⟨by decide, by decide, by decide, by decide⟩ (by decide) (by decide)

/-- C10: on a first save (no prior Version) with `saveAllChanges` off, the
handler splits the candidate on the newline character and skips exactly
when at most one part results; so any candidate containing a newline —
two or more parts — is persisted as one new Version. -/
theorem first_save_newline_persisted (db : FileVersionDB)
    (path content : String) (hWF : DBWF db)
    (hfile : getFile db path = none) :
    ((jsSplit content '\n').length ≤ 1 →
      (onWillSave false path content db).versions = db.versions) ∧
    (1 < (jsSplit content '\n').length →
      ∃ v, (onWillSave false path content db).versions = v :: db.versions ∧
        v.content = content) := by
  have hversnil : versOf (createFile db path).2 db.nextFileId = [] := by
    apply List.filter_eq_nil_iff.mpr
    intro v hv
    have : v.file_id < db.nextFileId := hWF.versFileLt v hv
    simpa using Nat.ne_of_lt this
  have hget1 : getFileVersions (createFile db path).2 db.nextFileId (some 1) = [] := by
    show (sortByNumDesc (versOf (createFile db path).2 db.nextFileId)).take 1 = []
    rw [hversnil]
    rfl
  have hstep : onWillSave false path content db
      = if shouldSkipSave false (createFile db path).2 db.nextFileId content
        then (createFile db path).2
        else (createVersion (createFile db path).2 db.nextFileId content).2 := by
    unfold onWillSave
    rw [hfile]
    show (if isDuplicate (getFileVersions (createFile db path).2 db.nextFileId (some 1))
            content then _
          else _) = _
    rw [hget1]
    rfl
  have hskip : shouldSkipSave false (createFile db path).2 db.nextFileId content
      = decide ((jsSplit content '\n').length ≤ 1) := by
    unfold shouldSkipSave
    rw [hget1]
    rfl
  constructor
  · intro hle
    rw [hstep, hskip, decide_eq_true hle]
    simp only [if_true]
    rfl
  · intro hgt
    rw [hstep, hskip]
    rw [decide_eq_false (Nat.not_le.mpr hgt)]
    simp only [Bool.false_eq_true, if_false]
    exact ⟨(createVersion (createFile db path).2 db.nextFileId content).1, rfl, rfl⟩

/-- Witness for `first_save_newline_persisted`: the candidate `x\n` (one
line plus a trailing newline, two split parts) is persisted. -/
theorem first_save_newline_persisted_witness :
    1 < (jsSplit "x\n" '\n').length ∧
    ∃ v, (onWillSave false "b.txt" "x\n" dbOne).versions = v :: dbOne.versions ∧
      v.content = "x\n" := by
  have h := first_save_newline_persisted dbOne "b.txt" "x\n"
    ⟨by decide, by decide, by decide, by decide⟩ (by decide)
  exact ⟨by decide, h.2 (by decide)⟩

end LLMCheckpoint
